import Mathlib

/-!
# Verification of `src/utils/unrolled_linked_list.rs`

A shallow embedding of the concurrent unrolled linked list and proofs about
its operations.

## Embedding choices

* `ULLNode<T, N>` holds `items: [T; N]` and `next: AtomicPtr<ULLNode<T, N>>`.
  We model a node as an inductive value carrying its items (a `List T`) and an
  optional owned successor (`Option` models the null / non-null pointer).
  The fixed width `N` is tracked by the predicate `ULLNode.wf`.
* `UnrolledLinkedList<T, N>` owns its head node by value; we model it as a
  structure with a single `head` field.
* The scan loop of `try_for_each_with_append` does not structurally terminate
  (it may grow the chain forever), so it is embedded fuel-style: one unit of
  fuel per loop iteration (i.e. per segment scanned); `none` means the fuel
  bound was exhausted with the loop still running.  The embedding also
  records the exact sequence of slot values passed to the predicate `f`
  (the examination trace), and lets `f` replace the slot value on success,
  which models the interior mutability of `T` (e.g. the `AtomicBool`
  compare-exchange predicate of the repository's test, which mutates the
  slot exactly when it returns `Some`).
* The embedding is sequential: in an uncontended run the compare-exchange of
  the append step always succeeds.  The racy outcome of that single
  compare-exchange is modelled separately by `linkOrDiscard`, parameterized
  by the value the compare-exchange actually finds, and the global
  write-once discipline of `next` pointers by the `casNext` trace model.
-/

set_option autoImplicit false

namespace UnrolledLL

universe u v

variable {T : Type u} {R : Type v}

/-- `struct ULLNode<T, N> { items: [T; N], next: AtomicPtr<ULLNode<T, N>> }`.
The `tail` constructor is a node whose `next` pointer is null, `cons` a node
whose `next` pointer refers to (and, after linking, owns) the following node;
together they encode `items × Option next` with plain structural recursion. -/
inductive ULLNode (T : Type u) : Type u where
  | tail (items : List T) : ULLNode T
  | cons (items : List T) (next : ULLNode T) : ULLNode T

/-- The `items` array of a node. -/
def ULLNode.items : ULLNode T → List T
  | .tail items => items
  | .cons items _ => items

/-- The `next` pointer of a node (`none` = null). -/
def ULLNode.next : ULLNode T → Option (ULLNode T)
  | .tail _ => none
  | .cons _ next => some next

@[simp] theorem ULLNode.items_tail (items : List T) :
    (ULLNode.tail items).items = items := rfl

@[simp] theorem ULLNode.items_cons (items : List T) (n : ULLNode T) :
    (ULLNode.cons items n).items = items := rfl

@[simp] theorem ULLNode.next_tail (items : List T) :
    (ULLNode.tail items).next = none := rfl

@[simp] theorem ULLNode.next_cons (items : List T) (n : ULLNode T) :
    (ULLNode.cons items n).next = some n := rfl

/-- `impl Default for ULLNode`: `items` is `N` default-initialized slots
(`array::from_fn(|_| T::default())`), `next` is null. -/
def ULLNode.defaultNode (d : T) (N : Nat) : ULLNode T :=
  .tail (List.replicate N d)

/-- `struct UnrolledLinkedList<T, N> { head: ULLNode<T, N> }` — the container
owns the head node by value. -/
structure UnrolledLinkedList (T : Type u) : Type u where
  head : ULLNode T

/-- `impl Default for UnrolledLinkedList` (derived): a container whose head is
a default node. -/
def UnrolledLinkedList.defaultList (d : T) (N : Nat) : UnrolledLinkedList T :=
  ⟨ULLNode.defaultNode d N⟩

/-- The `while` loop of `ULLNode::iter`: collect `self.items` and then the
`items` of every node reachable through `next`, in chain order (the `iters`
vector of the source). -/
def ULLNode.iterSegs : ULLNode T → List (List T)
  | .tail items => [items]
  | .cons items n => items :: n.iterSegs

/-- `ULLNode::iter`: flatten the collected per-segment item sequences. -/
def ULLNode.iter (node : ULLNode T) : List T :=
  node.iterSegs.flatten

/-- Number of segments linked into the chain starting at `node`. -/
def ULLNode.numSegs (node : ULLNode T) : Nat :=
  node.iterSegs.length

/-- Chain well-formedness: every segment holds exactly `N` items (true of
every chain the Rust API can build, by the `[T; N]` type). -/
def ULLNode.wf (N : Nat) (node : ULLNode T) : Prop :=
  ∀ s ∈ node.iterSegs, s.length = N

@[simp] theorem ULLNode.iterSegs_tail (items : List T) :
    (ULLNode.tail items).iterSegs = [items] := rfl

@[simp] theorem ULLNode.iterSegs_cons (items : List T) (n : ULLNode T) :
    (ULLNode.cons items n).iterSegs = items :: n.iterSegs := rfl

theorem ULLNode.iterSegs_ne_nil (node : ULLNode T) : node.iterSegs ≠ [] := by
  cases node <;> simp

/-- Rebuild a node from a non-empty list of segments (left inverse of
`ULLNode.iterSegs`); the `[]` case is junk, never reached. -/
def ULLNode.ofSegs : List (List T) → ULLNode T
  | [] => .tail []
  | [s] => .tail s
  | s :: s' :: rest => .cons s (ofSegs (s' :: rest))

@[simp] theorem ULLNode.ofSegs_singleton (s : List T) :
    ULLNode.ofSegs [s] = .tail s := rfl

@[simp] theorem ULLNode.ofSegs_cons_cons (s s' : List T) (rest : List (List T)) :
    ULLNode.ofSegs (s :: s' :: rest) = .cons s (ofSegs (s' :: rest)) := rfl

theorem ULLNode.ofSegs_iterSegs (node : ULLNode T) :
    ULLNode.ofSegs node.iterSegs = node := by
  induction node with
  | tail items => simp
  | cons items n ih =>
    have hne := n.iterSegs_ne_nil
    cases h : n.iterSegs with
    | nil => exact absurd h hne
    | cons s rest =>
      simp only [ULLNode.iterSegs_cons, h, ULLNode.ofSegs_cons_cons]
      rw [h] at ih
      rw [ih]

theorem ULLNode.iterSegs_ofSegs (s : List T) (rest : List (List T)) :
    (ULLNode.ofSegs (s :: rest)).iterSegs = s :: rest := by
  induction rest generalizing s with
  | nil => simp [ULLNode.ofSegs]
  | cons s' rest ih => simp [ULLNode.ofSegs, ih]

theorem ULLNode.ofSegs_cons_of_ne_nil (s : List T) (rest : List (List T))
    (h : rest ≠ []) : ULLNode.ofSegs (s :: rest) = .cons s (ofSegs rest) := by
  cases rest with
  | nil => exact absurd rfl h
  | cons s' rest' => rfl

/-- The inner `for item in curr.items.iter()` loop of
`try_for_each_with_append`: apply `f` to each slot in index order; stop at the
first slot where `f` yields `Some`.  Returns the trace of slot values passed
to `f`, and on success the result together with the segment's item list after
the call (`f` may replace the matched slot's value, modelling the interior
mutability of `T`; a slot on which `f` yields `None` is unchanged). -/
def scanSeg (f : T → Option (R × T)) : List T → List T × Option (R × List T)
  | [] => ([], none)
  | x :: xs =>
    match f x with
    | some (r, x') => ([x], some (r, x' :: xs))
    | none =>
      match scanSeg f xs with
      | (tr, none) => (x :: tr, none)
      | (tr, some (r, xs')) => (x :: tr, some (r, x :: xs'))

@[simp] theorem scanSeg_nil (f : T → Option (R × T)) : scanSeg f [] = ([], none) := rfl

theorem scanSeg_cons (f : T → Option (R × T)) (x : T) (xs : List T) :
    scanSeg f (x :: xs) =
      match f x with
      | some (r, x') => ([x], some (r, x' :: xs))
      | none =>
        match scanSeg f xs with
        | (tr, none) => (x :: tr, none)
        | (tr, some (r, xs')) => (x :: tr, some (r, x :: xs')) := rfl

/-- The `loop` of `UnrolledLinkedList::try_for_each_with_append`, fuel-indexed:
each unit of fuel allows one loop iteration (scanning one segment).  Scan the
current node's items; on a match return the result and the chain with that
segment's updated items; otherwise follow `next`, and if `next` is null,
allocate a fresh default node and link it (the embedding is sequential, so the
compare-exchange publishing the new node succeeds; the contended outcomes of
that compare-exchange are modelled by `linkOrDiscard` below).  The first
component is the concatenated trace of slot values passed to `f`; a `none`
second component means the fuel bound was exhausted with the loop still
running. -/
def tryGo (f : T → Option (R × T)) (d : T) (N : Nat) :
    Nat → ULLNode T → List T × Option (R × ULLNode T)
  | 0, _ => ([], none)
  | fuel + 1, .tail items =>
    match scanSeg f items with
    | (tr, some (r, items')) => (tr, some (r, .tail items'))
    | (tr, none) =>
      match tryGo f d N fuel (ULLNode.defaultNode d N) with
      | (tr', res) => (tr ++ tr', res.map fun p => (p.1, .cons items p.2))
  | fuel + 1, .cons items n =>
    match scanSeg f items with
    | (tr, some (r, items')) => (tr, some (r, .cons items' n))
    | (tr, none) =>
      match tryGo f d N fuel n with
      | (tr', res) => (tr ++ tr', res.map fun p => (p.1, .cons items p.2))

/-- `UnrolledLinkedList::try_for_each_with_append(f)`: run the scan loop from
the owned head node. -/
def UnrolledLinkedList.tryForEachWithAppend (l : UnrolledLinkedList T)
    (f : T → Option (R × T)) (d : T) (N : Nat) (fuel : Nat) :
    List T × Option (R × UnrolledLinkedList T) :=
  match tryGo f d N fuel l.head with
  | (tr, res) => (tr, res.map fun p => (p.1, ⟨p.2⟩))

/-- The scan loop re-expressed on the segment list of the chain (`[]` is junk,
never reached from a chain).  Proven equivalent to `tryGo` in
`tryGo_eq_tryGoSegs`; all list-level reasoning goes through this version. -/
def tryGoSegs (f : T → Option (R × T)) (d : T) (N : Nat) :
    Nat → List (List T) → List T × Option (R × List (List T))
  | 0, _ => ([], none)
  | _ + 1, [] => ([], none)
  | fuel + 1, s :: rest =>
    match scanSeg f s with
    | (tr, some (r, s')) => (tr, some (r, s' :: rest))
    | (tr, none) =>
      match tryGoSegs f d N fuel (if rest.isEmpty then [List.replicate N d] else rest) with
      | (tr', res) => (tr ++ tr', res.map fun p => (p.1, s :: p.2))

theorem tryGoSegs_zero (f : T → Option (R × T)) (d : T) (N : Nat)
    (segs : List (List T)) : tryGoSegs f d N 0 segs = ([], none) := rfl

theorem tryGoSegs_cons (f : T → Option (R × T)) (d : T) (N : Nat) (fuel : Nat)
    (s : List T) (rest : List (List T)) :
    tryGoSegs f d N (fuel + 1) (s :: rest) =
      match scanSeg f s with
      | (tr, some (r, s')) => (tr, some (r, s' :: rest))
      | (tr, none) =>
        match tryGoSegs f d N fuel (if rest.isEmpty then [List.replicate N d] else rest) with
        | (tr', res) => (tr ++ tr', res.map fun p => (p.1, s :: p.2)) := rfl

theorem tryGoSegs_ne_nil (f : T → Option (R × T)) (d : T) (N : Nat)
    (fuel : Nat) (segs : List (List T)) (r : R) (segs' : List (List T))
    (h : (tryGoSegs f d N fuel segs).2 = some (r, segs')) : segs' ≠ [] := by
  induction fuel generalizing segs with
  | zero => simp [tryGoSegs_zero] at h
  | succ fuel ih =>
    cases segs with
    | nil => simp [tryGoSegs] at h
    | cons s rest =>
      rw [tryGoSegs_cons] at h
      cases hscan : scanSeg f s with
      | mk tr res =>
        cases res with
        | some p =>
          rw [hscan] at h
          simp at h
          simp [← h.2]
        | none =>
          rw [hscan] at h
          cases hrec : tryGoSegs f d N fuel (if rest.isEmpty then [List.replicate N d] else rest) with
          | mk tr' res' =>
            rw [hrec] at h
            simp at h
            obtain ⟨q, hq, hq1, hq2⟩ := h
            simp [← hq2]

/-- `tryGo` agrees with the segment-list version of the loop. -/
theorem tryGo_eq_tryGoSegs (f : T → Option (R × T)) (d : T) (N : Nat)
    (fuel : Nat) (node : ULLNode T) :
    tryGo f d N fuel node =
      ((tryGoSegs f d N fuel node.iterSegs).1,
       (tryGoSegs f d N fuel node.iterSegs).2.map fun p => (p.1, ULLNode.ofSegs p.2)) := by
  induction fuel generalizing node with
  | zero => simp [tryGo, tryGoSegs_zero]
  | succ fuel ih =>
    cases node with
    | tail items =>
      simp only [ULLNode.iterSegs_tail, tryGoSegs_cons]
      cases hscan : scanSeg f items with
      | mk tr res =>
        cases res with
        | some p =>
          obtain ⟨r, items'⟩ := p
          simp [tryGo, hscan]
        | none =>
          have hrec := ih (ULLNode.defaultNode d N)
          rw [show (ULLNode.defaultNode d N : ULLNode T).iterSegs
            = [List.replicate N d] from rfl] at hrec
          simp only [tryGo, hscan, hrec, List.isEmpty_nil, if_pos]
          cases hs : tryGoSegs f d N fuel [List.replicate N d] with
          | mk tr' res' =>
            cases res' with
            | none => simp
            | some q =>
              obtain ⟨r, segs'⟩ := q
              have hne : segs' ≠ [] := tryGoSegs_ne_nil f d N fuel _ r segs' (by rw [hs])
              simp [ULLNode.ofSegs_cons_of_ne_nil items segs' hne]
    | cons items n =>
      simp only [ULLNode.iterSegs_cons, tryGoSegs_cons]
      cases hscan : scanSeg f items with
      | mk tr res =>
        cases res with
        | some p =>
          obtain ⟨r, items'⟩ := p
          have hne := n.iterSegs_ne_nil
          simp [tryGo, hscan, ULLNode.ofSegs_cons_of_ne_nil items' n.iterSegs hne,
            ULLNode.ofSegs_iterSegs]
        | none =>
          have hrec := ih n
          have hnil : n.iterSegs.isEmpty = false := by
            cases h : n.iterSegs with
            | nil => exact absurd h n.iterSegs_ne_nil
            | cons a b => simp
          simp only [tryGo, hscan, hrec, hnil, Bool.false_eq_true, if_neg, not_false_iff]
          cases hs : tryGoSegs f d N fuel n.iterSegs with
          | mk tr' res' =>
            cases res' with
            | none => simp
            | some q =>
              obtain ⟨r, segs'⟩ := q
              have hne : segs' ≠ [] := tryGoSegs_ne_nil f d N fuel _ r segs' (by rw [hs])
              simp [ULLNode.ofSegs_cons_of_ne_nil items segs' hne]

/-- A pure predicate `g`, as in the source signature `F: Fn(&T) -> Option<R>`,
lifted to the slot-updating form: the slot value is left unchanged. -/
def liftF (g : T → Option R) : T → Option (R × T) :=
  fun t => (g t).map fun r => (r, t)

/-- The slots a left-to-right scan examines: every slot up to and including
the first one on which `g` yields `Some` (all slots if none does). -/
def scanTrace (g : T → Option R) : List T → List T
  | [] => []
  | x :: xs =>
    match g x with
    | some _ => [x]
    | none => x :: scanTrace g xs

@[simp] theorem scanTrace_nil (g : T → Option R) : scanTrace g [] = [] := rfl

theorem scanTrace_cons (g : T → Option R) (x : T) (xs : List T) :
    scanTrace g (x :: xs) =
      match g x with
      | some _ => [x]
      | none => x :: scanTrace g xs := rfl

theorem scanTrace_eq_takeWhile (g : T → Option R) (l : List T) :
    scanTrace g l = l.takeWhile (fun x => (g x).isNone)
      ++ (l.dropWhile (fun x => (g x).isNone)).take 1 := by
  induction l with
  | nil => rfl
  | cons x xs ih =>
    rw [scanTrace_cons]
    cases hx : g x with
    | some r => simp [List.takeWhile_cons, List.dropWhile_cons, hx]
    | none => simp [List.takeWhile_cons, List.dropWhile_cons, hx, ih]

theorem scanSeg_of_all_none (f : T → Option (R × T)) (l : List T)
    (h : ∀ x ∈ l, f x = none) : scanSeg f l = (l, none) := by
  induction l with
  | nil => rfl
  | cons x xs ih =>
    rw [scanSeg_cons, h x (by simp), ih (fun y hy => h y (by simp [hy]))]

theorem scanSeg_none_inv (f : T → Option (R × T)) (l tr : List T)
    (h : scanSeg f l = (tr, none)) : tr = l ∧ ∀ x ∈ l, f x = none := by
  induction l generalizing tr with
  | nil =>
    simp only [scanSeg_nil, Prod.mk.injEq] at h
    rw [← h.1]
    simp
  | cons x xs ih =>
    rw [scanSeg_cons] at h
    cases hx : f x with
    | some p =>
      obtain ⟨r, x'⟩ := p
      rw [hx] at h
      simp at h
    | none =>
      rw [hx] at h
      cases hs : scanSeg f xs with
      | mk tr2 res2 =>
        rw [hs] at h
        cases res2 with
        | none =>
          simp only [Prod.mk.injEq] at h
          obtain ⟨htr2, hall⟩ := ih tr2 (by rw [hs])
          constructor
          · rw [← h.1, htr2]
          · intro y hy
            rcases List.mem_cons.mp hy with hy | hy
            · rw [hy]; exact hx
            · exact hall y hy
        | some q =>
          obtain ⟨r, xs'⟩ := q
          simp at h

theorem scanSeg_append_match (f : T → Option (R × T)) (a : List T) (x : T)
    (b : List T) (r : R) (x' : T) (ha : ∀ y ∈ a, f y = none)
    (hx : f x = some (r, x')) :
    scanSeg f (a ++ x :: b) = (a ++ [x], some (r, a ++ x' :: b)) := by
  induction a with
  | nil => simp [scanSeg_cons, hx]
  | cons y ys ih =>
    rw [List.cons_append, scanSeg_cons, ha y (by simp),
      ih (fun z hz => ha z (by simp [hz]))]
    simp

theorem scanSeg_some_inv (f : T → Option (R × T)) (l tr : List T) (r : R)
    (l' : List T) (h : scanSeg f l = (tr, some (r, l'))) :
    ∃ a x b x', l = a ++ x :: b ∧ (∀ y ∈ a, f y = none) ∧ f x = some (r, x')
      ∧ tr = a ++ [x] ∧ l' = a ++ x' :: b := by
  induction l generalizing tr l' with
  | nil => simp at h
  | cons x xs ih =>
    rw [scanSeg_cons] at h
    cases hx : f x with
    | some p =>
      obtain ⟨r0, x0⟩ := p
      rw [hx] at h
      simp only [Prod.mk.injEq, Option.some.injEq] at h
      obtain ⟨htr, hr, hl'⟩ := h
      exact ⟨[], x, xs, x0, by simp, by simp, by rw [hx, hr], by simp [← htr],
        by simp [← hl']⟩
    | none =>
      rw [hx] at h
      cases hs : scanSeg f xs with
      | mk tr2 res2 =>
        rw [hs] at h
        cases res2 with
        | none => simp at h
        | some q =>
          obtain ⟨r2, xs2⟩ := q
          simp only [Prod.mk.injEq, Option.some.injEq] at h
          obtain ⟨htr, hr, hl'⟩ := h
          obtain ⟨a, y, b, y', hxs, hall, hy, htr2, hxs2⟩ :=
            ih tr2 xs2 (by rw [hs, hr])
          refine ⟨x :: a, y, b, y', by simp [hxs], ?_, hy, ?_, ?_⟩
          · intro z hz
            rcases List.mem_cons.mp hz with hz | hz
            · rw [hz]; exact hx
            · exact hall z hz
          · simp [← htr, htr2]
          · simp [← hl', hxs2]

theorem scanSeg_liftF (g : T → Option R) (l : List T) :
    scanSeg (liftF g) l = (scanTrace g l, (l.findSome? g).map fun r => (r, l)) := by
  induction l with
  | nil => rfl
  | cons x xs ih =>
    rw [scanSeg_cons, scanTrace_cons]
    cases hx : g x with
    | some r =>
      have hlx : liftF g x = some (r, x) := by simp [liftF, hx]
      simp [hlx, hx, List.findSome?_cons]
    | none =>
      have hlx : liftF g x = none := by simp [liftF, hx]
      rw [hlx, ih]
      cases hfs : List.findSome? g xs with
      | none => simp [List.findSome?_cons, hx, hfs]
      | some r => simp [List.findSome?_cons, hx, hfs]

/-- The segments the fuel-bounded scan loop can visit, starting from the
chain `segs`: the chain's segments, truncated to `fuel`, followed by the
default segments the loop appends once the chain is exhausted. -/
def pathL (d : T) (N : Nat) (segs : List (List T)) (fuel : Nat) : List (List T) :=
  segs.take fuel ++ List.replicate (fuel - segs.length) (List.replicate N d)

/-- Node-level view of `pathL`. -/
def pathSegs (d : T) (N : Nat) (node : ULLNode T) (fuel : Nat) : List (List T) :=
  pathL d N node.iterSegs fuel

theorem pathL_zero (d : T) (N : Nat) (segs : List (List T)) :
    pathL d N segs 0 = [] := by
  simp [pathL]

theorem pathL_cons (d : T) (N : Nat) (s : List T) (rest : List (List T))
    (fuel : Nat) :
    pathL d N (s :: rest) (fuel + 1) =
      s :: pathL d N (if rest.isEmpty then [List.replicate N d] else rest) fuel := by
  cases rest with
  | nil =>
    cases fuel with
    | zero => simp [pathL]
    | succ m => simp [pathL, List.replicate_succ]
  | cons s' rest' =>
    simp [pathL, Nat.succ_sub_succ]

theorem pathL_length (d : T) (N : Nat) (segs : List (List T)) (fuel : Nat)
    (h : fuel ≥ segs.length) : (pathL d N segs fuel).length = fuel := by
  simp only [pathL, List.length_append, List.length_take, List.length_replicate]
  omega

theorem pathL_of_le (d : T) (N : Nat) (segs : List (List T)) (fuel : Nat)
    (h : fuel ≤ segs.length) : pathL d N segs fuel = segs.take fuel := by
  simp [pathL, Nat.sub_eq_zero_of_le h]

theorem scanTrace_append_none (g : T → Option R) (a b : List T)
    (ha : ∀ x ∈ a, g x = none) : scanTrace g (a ++ b) = a ++ scanTrace g b := by
  induction a with
  | nil => simp
  | cons y ys ih =>
    rw [List.cons_append, scanTrace_cons, ha y (by simp),
      ih (fun z hz => ha z (by simp [hz]))]
    simp

theorem scanTrace_append_some (g : T → Option R) (a b : List T) (r : R)
    (ha : a.findSome? g = some r) : scanTrace g (a ++ b) = scanTrace g a := by
  induction a with
  | nil => simp at ha
  | cons y ys ih =>
    rw [List.cons_append, scanTrace_cons, scanTrace_cons]
    cases hy : g y with
    | some s => simp
    | none =>
      rw [List.findSome?_cons, hy] at ha
      rw [ih ha]

theorem scanTrace_of_all_none (g : T → Option R) (l : List T)
    (h : ∀ x ∈ l, g x = none) : scanTrace g l = l := by
  induction l with
  | nil => rfl
  | cons x xs ih =>
    rw [scanTrace_cons, h x (by simp), ih (fun y hy => h y (by simp [hy]))]

/-- Characterization of the scan loop for a pure predicate: the slots it
passes to the predicate are exactly the in-order initial run of the
flattened fuel-extended path up to and including the first match, and the
returned value is the predicate's result on that first matching slot
(`List.findSome?`). -/
theorem tryGoSegs_liftF_char (g : T → Option R) (d : T) (N : Nat)
    (fuel : Nat) (segs : List (List T)) (hne : segs ≠ []) :
    (tryGoSegs (liftF g) d N fuel segs).1
        = scanTrace g (pathL d N segs fuel).flatten
    ∧ ((tryGoSegs (liftF g) d N fuel segs).2).map Prod.fst
        = (pathL d N segs fuel).flatten.findSome? g := by
  induction fuel generalizing segs with
  | zero => simp [tryGoSegs_zero, pathL_zero]
  | succ fuel ih =>
    cases segs with
    | nil => exact absurd rfl hne
    | cons s rest =>
      rw [tryGoSegs_cons, pathL_cons]
      have hne' : (if rest.isEmpty then [List.replicate N d] else rest) ≠ [] := by
        cases rest <;> simp
      obtain ⟨ih1, ih2⟩ := ih (if rest.isEmpty then [List.replicate N d] else rest) hne'
      have hsl := scanSeg_liftF g s
      cases hfs : s.findSome? g with
      | some r =>
        rw [hfs, Option.map_some'] at hsl
        rw [hsl, List.flatten_cons]
        rw [scanTrace_append_some g s _ r hfs]
        rw [List.findSome?_append, hfs]
        simp [scanSeg_liftF, hfs]
      | none =>
        have hall : ∀ x ∈ s, g x = none := List.findSome?_eq_none_iff.mp hfs
        rw [hfs, Option.map_none'] at hsl
        rw [hsl, List.flatten_cons]
        rw [scanTrace_append_none g s _ hall]
        rw [List.findSome?_append, hfs, Option.none_or]
        cases hrec : tryGoSegs (liftF g) d N fuel
            (if rest.isEmpty then [List.replicate N d] else rest) with
        | mk tr' res' =>
          rw [hrec] at ih1 ih2
          simp only at ih1 ih2
          constructor
          · simp [← ih1, scanTrace_of_all_none g s hall]
          · rw [← ih2]
            cases res' <;> simp

/-- If the fuel-bounded scan loop exits with fuel exhausted (`none`), it has
examined every slot of the whole fuel-extended path, each yielding no match:
there is no terminal "not found" outcome, only an ever-growing scan. -/
theorem tryGoSegs_none_char (f : T → Option (R × T)) (d : T) (N : Nat)
    (fuel : Nat) (segs : List (List T)) (hne : segs ≠ [])
    (h : (tryGoSegs f d N fuel segs).2 = none) :
    (tryGoSegs f d N fuel segs).1 = (pathL d N segs fuel).flatten
    ∧ ∀ x ∈ (pathL d N segs fuel).flatten, f x = none := by
  induction fuel generalizing segs with
  | zero => simp [tryGoSegs_zero, pathL_zero]
  | succ fuel ih =>
    cases segs with
    | nil => exact absurd rfl hne
    | cons s rest =>
      rw [tryGoSegs_cons] at h ⊢
      rw [pathL_cons]
      cases hscan : scanSeg f s with
      | mk tr res =>
        rw [hscan] at h
        cases res with
        | some p =>
          obtain ⟨r, s'⟩ := p
          simp at h
        | none =>
          obtain ⟨htr, halls⟩ := scanSeg_none_inv f s tr hscan
          have hne' : (if rest.isEmpty then [List.replicate N d] else rest) ≠ [] := by
            cases rest <;> simp
          cases hrec : tryGoSegs f d N fuel
              (if rest.isEmpty then [List.replicate N d] else rest) with
          | mk tr' res' =>
            rw [hrec] at h
            cases res' with
            | some q => simp at h
            | none =>
              obtain ⟨ih1, ih2⟩ := ih _ hne' (by rw [hrec])
              rw [hrec] at ih1
              simp only at ih1
              constructor
              · simp [List.flatten_cons, htr, ← ih1]
              · intro x hx
                rw [List.flatten_cons, List.mem_append] at hx
                rcases hx with hx | hx
                · exact halls x hx
                · exact ih2 x hx

/-- Termination of the scan loop when the predicate accepts the default slot
value: fuel `segs.length + 1` always suffices (at worst every existing
segment is exhausted and one freshly appended default segment is scanned,
whose first slot matches). -/
theorem tryGoSegs_isSome (f : T → Option (R × T)) (d : T) (N : Nat)
    (hd : (f d).isSome) (hN : 1 ≤ N) (segs : List (List T)) (hne : segs ≠ []) :
    (tryGoSegs f d N (segs.length + 1) segs).2.isSome := by
  induction segs with
  | nil => exact absurd rfl hne
  | cons s rest ih =>
    rw [List.length_cons, tryGoSegs_cons]
    cases hscan : scanSeg f s with
    | mk tr res =>
      cases res with
      | some p => simp
      | none =>
        cases hrest : rest with
        | nil =>
          obtain ⟨N', hN'⟩ : ∃ N', N = N' + 1 := ⟨N - 1, by omega⟩
          obtain ⟨p, hp⟩ := Option.isSome_iff_exists.mp hd
          have : scanSeg f (List.replicate N d) = ([d], some (p.1, p.2 :: List.replicate N' d)) := by
            rw [hN', List.replicate_succ, scanSeg_cons, hp]
          rw [show ([] : List (List T)).length = 0 from rfl]
          rw [show (0 : Nat) + 1 = 1 from rfl]
          simp only [List.isEmpty_nil, if_pos]
          rw [tryGoSegs_cons, this]
          simp
        | cons s' rest' =>
          rw [← hrest]
          have hne2 : rest ≠ [] := by rw [hrest]; simp
          have hisE : rest.isEmpty = false := by rw [hrest]; rfl
          rw [hisE]
          simp only [Bool.false_eq_true, if_neg, not_false_iff]
          have := ih hne2
          cases hrec : tryGoSegs f d N (rest.length + 1) rest with
          | mk tr' res' =>
            rw [hrec] at this
            cases res' with
            | none => simp at this
            | some q => simp

/-- If some slot already present in the chain matches, the scan stops inside
the existing chain: on success the chain keeps exactly the same segment
skeleton (same segment count, each segment the same length, all links
unchanged). -/
theorem tryGoSegs_frame (f : T → Option (R × T)) (d : T) (N : Nat)
    (fuel : Nat) (segs : List (List T))
    (hm : ∃ x ∈ segs.flatten, (f x).isSome) (r : R) (segs' : List (List T))
    (h : (tryGoSegs f d N fuel segs).2 = some (r, segs')) :
    segs'.map List.length = segs.map List.length := by
  induction fuel generalizing segs segs' r with
  | zero => simp [tryGoSegs_zero] at h
  | succ fuel ih =>
    cases segs with
    | nil => simp [tryGoSegs] at h
    | cons s rest =>
      rw [tryGoSegs_cons] at h
      cases hscan : scanSeg f s with
      | mk tr res =>
        rw [hscan] at h
        cases res with
        | some p =>
          obtain ⟨r0, s0⟩ := p
          simp only [Prod.mk.injEq, Option.some.injEq] at h
          obtain ⟨a, x, b, x', hs, _, _, _, hs0⟩ := scanSeg_some_inv f s tr r0 s0 hscan
          rw [← h.2, hs0, hs]
          simp
        | none =>
          obtain ⟨htr, halls⟩ := scanSeg_none_inv f s tr hscan
          have hrest : ∃ x ∈ rest.flatten, (f x).isSome := by
            obtain ⟨x, hx, hsome⟩ := hm
            rw [List.flatten_cons, List.mem_append] at hx
            rcases hx with hx | hx
            · rw [halls x hx] at hsome; simp at hsome
            · exact ⟨x, hx, hsome⟩
          have hne2 : rest ≠ [] := by
            rintro rfl
            obtain ⟨x, hx, _⟩ := hrest
            simp at hx
          have hisE : rest.isEmpty = false := by
            cases rest with
            | nil => exact absurd rfl hne2
            | cons a b => rfl
          rw [hisE] at h
          simp only [Bool.false_eq_true, if_neg, not_false_iff] at h
          cases hrec : tryGoSegs f d N fuel rest with
          | mk tr' res' =>
            rw [hrec] at h
            cases res' with
            | none => simp at h
            | some q =>
              simp only [Option.map_some', Option.some.injEq, Prod.mk.injEq] at h
              have := ih rest hrest q.1 q.2 (by rw [hrec])
              rw [← h.2]
              simp [this]

@[simp] theorem liftF_eq_none (g : T → Option R) (t : T) :
    liftF g t = none ↔ g t = none := by
  simp [liftF]

@[simp] theorem liftF_isSome (g : T → Option R) (t : T) :
    (liftF g t).isSome = (g t).isSome := by
  simp [liftF]

/-- The chain never shrinks across a call of the scan loop. -/
theorem tryGoSegs_length_le (f : T → Option (R × T)) (d : T) (N : Nat)
    (fuel : Nat) (segs : List (List T)) (r : R) (segs' : List (List T))
    (h : (tryGoSegs f d N fuel segs).2 = some (r, segs')) :
    segs.length ≤ segs'.length := by
  induction fuel generalizing segs segs' r with
  | zero => simp [tryGoSegs_zero] at h
  | succ fuel ih =>
    cases segs with
    | nil => simp [tryGoSegs] at h
    | cons s rest =>
      rw [tryGoSegs_cons] at h
      cases hscan : scanSeg f s with
      | mk tr res =>
        rw [hscan] at h
        cases res with
        | some p =>
          obtain ⟨r0, s0⟩ := p
          simp only [Prod.mk.injEq, Option.some.injEq] at h
          rw [← h.2]
          simp
        | none =>
          cases hrec : tryGoSegs f d N fuel
              (if rest.isEmpty then [List.replicate N d] else rest) with
          | mk tr' res' =>
            rw [hrec] at h
            cases res' with
            | none => simp at h
            | some q =>
              simp only [Option.map_some', Option.some.injEq, Prod.mk.injEq] at h
              have hle := ih _ q.1 q.2 (by rw [hrec])
              rw [← h.2]
              cases hrest : rest with
              | nil => simp
              | cons a b =>
                rw [hrest] at hle
                simp at hle
                simp only [List.length_cons]
                omega

/-- Growth is minimal: if a successful call grew the chain to `K` segments,
then the same scan bounded to `K - 1` loop iterations finds no match — every
appended segment was necessary. -/
theorem tryGoSegs_minimal (f : T → Option (R × T)) (d : T) (N : Nat)
    (fuel : Nat) (segs : List (List T)) (r : R) (segs' : List (List T))
    (hne : segs ≠ []) (h : (tryGoSegs f d N fuel segs).2 = some (r, segs'))
    (hlt : segs.length < segs'.length) :
    (tryGoSegs f d N (segs'.length - 1) segs).2 = none := by
  induction fuel generalizing segs segs' r with
  | zero => simp [tryGoSegs_zero] at h
  | succ fuel ih =>
    cases segs with
    | nil => exact absurd rfl hne
    | cons s rest =>
      rw [tryGoSegs_cons] at h
      cases hscan : scanSeg f s with
      | mk tr res =>
        rw [hscan] at h
        cases res with
        | some p =>
          obtain ⟨r0, s0⟩ := p
          simp only [Prod.mk.injEq, Option.some.injEq] at h
          rw [← h.2] at hlt
          simp at hlt
        | none =>
          cases hrec : tryGoSegs f d N fuel
              (if rest.isEmpty then [List.replicate N d] else rest) with
          | mk tr' res' =>
            rw [hrec] at h
            cases res' with
            | none => simp at h
            | some q =>
              obtain ⟨r2, segs2⟩ := q
              simp only [Option.map_some', Option.some.injEq, Prod.mk.injEq] at h
              have hne2 : segs2 ≠ [] := tryGoSegs_ne_nil f d N fuel _ r2 segs2 (by rw [hrec])
              obtain ⟨m, hm2⟩ : ∃ m, segs2.length = m + 1 := by
                cases hs2 : segs2 with
                | nil => exact absurd hs2 hne2
                | cons a b => exact ⟨b.length, by simp⟩
              rw [← h.2]
              have hlen : (s :: segs2).length - 1 = m + 1 := by simp [hm2]
              rw [hlen, tryGoSegs_cons, hscan]
              have hnone : (tryGoSegs f d N m
                  (if rest.isEmpty then [List.replicate N d] else rest)).2 = none := by
                cases hmz : m with
                | zero => rfl
                | succ m' =>
                  rw [← h.2] at hlt
                  simp only [List.length_cons] at hlt
                  have hlt2 : (if rest.isEmpty then [List.replicate N d] else rest).length
                      < segs2.length := by
                    cases hrest : rest with
                    | nil => simp [hm2, hmz]
                    | cons a b =>
                      rw [hrest] at hlt
                      simp only [List.length_cons] at hlt
                      simp only [List.isEmpty_cons, Bool.false_eq_true, if_false,
                        List.length_cons]
                      omega
                  have hne3 : (if rest.isEmpty then [List.replicate N d] else rest) ≠ [] := by
                    cases rest <;> simp
                  have := ih _ r2 segs2 hne3 (by rw [hrec, h.1]) hlt2
                  rw [hm2] at this
                  simpa [hmz] using this
              cases hx : tryGoSegs f d N m
                  (if rest.isEmpty then [List.replicate N d] else rest) with
              | mk tr2 res2 =>
                rw [hx] at hnone
                simp only at hnone
                rw [hnone]
                simp

/-- Pure-predicate frame property: if a slot of the existing chain matches,
a successful scan returns the chain completely unchanged. -/
theorem tryGoSegs_liftF_frame (g : T → Option R) (d : T) (N : Nat)
    (fuel : Nat) (segs : List (List T))
    (hm : ∃ x ∈ segs.flatten, (g x).isSome) (r : R) (segs' : List (List T))
    (h : (tryGoSegs (liftF g) d N fuel segs).2 = some (r, segs')) :
    segs' = segs := by
  induction fuel generalizing segs segs' r with
  | zero => simp [tryGoSegs_zero] at h
  | succ fuel ih =>
    cases segs with
    | nil => simp [tryGoSegs] at h
    | cons s rest =>
      rw [tryGoSegs_cons] at h
      have hsl := scanSeg_liftF g s
      cases hfs : s.findSome? g with
      | some r0 =>
        rw [hfs, Option.map_some'] at hsl
        rw [hsl] at h
        simp only [Prod.mk.injEq, Option.some.injEq] at h
        rw [← h.2]
      | none =>
        have hall : ∀ x ∈ s, g x = none := List.findSome?_eq_none_iff.mp hfs
        rw [hfs, Option.map_none'] at hsl
        rw [hsl] at h
        have hrest : ∃ x ∈ rest.flatten, (g x).isSome := by
          obtain ⟨x, hx, hsome⟩ := hm
          rw [List.flatten_cons, List.mem_append] at hx
          rcases hx with hx | hx
          · rw [hall x hx] at hsome; simp at hsome
          · exact ⟨x, hx, hsome⟩
        have hne2 : rest ≠ [] := by
          rintro rfl
          obtain ⟨x, hx, _⟩ := hrest
          simp at hx
        have hisE : rest.isEmpty = false := by
          cases rest with
          | nil => exact absurd rfl hne2
          | cons a b => rfl
        rw [hisE] at h
        simp only [Bool.false_eq_true, if_neg, not_false_iff] at h
        cases hrec : tryGoSegs (liftF g) d N fuel rest with
        | mk tr' res' =>
          rw [hrec] at h
          cases res' with
          | none => simp at h
          | some q =>
            simp only [Option.map_some', Option.some.injEq, Prod.mk.injEq] at h
            have := ih rest hrest q.1 q.2 (by rw [hrec])
            rw [← h.2, this]

/-- `impl Drop for ULLNode`: dropping a node loads its `next` pointer with
`SeqCst` and, if non-null, calls `dealloc_box_ptr` on the successor, which
runs the successor's own `drop` recursively down the chain until the node
with a null `next` is reached.  `dropSeq node` is the sequence of nodes
destroyed by dropping `node`, in destruction order. -/
def ULLNode.dropSeq : ULLNode T → List (ULLNode T)
  | .tail items => [.tail items]
  | .cons items n => .cons items n :: n.dropSeq

@[simp] theorem ULLNode.dropSeq_tail (items : List T) :
    (ULLNode.tail items).dropSeq = [.tail items] := rfl

@[simp] theorem ULLNode.dropSeq_cons (items : List T) (n : ULLNode T) :
    (ULLNode.cons items n).dropSeq = .cons items n :: n.dropSeq := rfl

theorem ULLNode.numSegs_le_of_mem_dropSeq (node m : ULLNode T)
    (h : m ∈ node.dropSeq) : m.numSegs ≤ node.numSegs := by
  induction node with
  | tail items =>
    simp only [dropSeq_tail, List.mem_singleton] at h
    rw [h]
  | cons items n ih =>
    simp only [dropSeq_cons, List.mem_cons] at h
    rcases h with h | h
    · rw [h]
    · calc m.numSegs ≤ n.numSegs := ih h
        _ ≤ (ULLNode.cons items n).numSegs := by
            simp [ULLNode.numSegs]

/-- The append protocol step, source lines 25–41, parameterized by the
outcome of its single `compare_exchange`: the scanning thread has loaded
`curr.next` as null, allocates one fully default-initialized node
(`alloc_box_ptr(ULLNode::default())`), and attempts one compare-exchange of
`curr.next` from null to the new node with `SeqCst` ordering.  `actual` is
the value the compare-exchange finds in `curr.next` at its linearization
point: `none` means it is still null, so the swap succeeds (`Ok`); `some a`
means another thread has already linked node `a`, so the swap fails (`Err`)
and reports `a` as the actual current value.  The result records, in order:
the speculative node that was constructed, the value of `curr.next` after
the step, the node the thread continues scanning from, and whether the
speculative node was linked; `false` in the last component means it is
immediately destroyed (`dealloc_box_ptr(new_node)`) without ever having been
reachable. -/
def linkOrDiscard (d : T) (N : Nat) (actual : Option (ULLNode T)) :
    ULLNode T × Option (ULLNode T) × ULLNode T × Bool :=
  let newNode := ULLNode.defaultNode d N
  match actual with
  | none => (newNode, some newNode, newNode, true)
  | some a => (newNode, some a, a, false)

/-- The write-once discipline of `next` pointers.  The only instruction in
the source that ever writes a `next` field is the
`compare_exchange(null_mut(), new_node, SeqCst, SeqCst)` inside
`try_for_each_with_append` (`ULLNode::iter` and `Drop` only load `next`).
A heap state maps each node address to the value of that node's `next` field
(`none` = null); `casNext st node v` is the effect of one such
compare-exchange executed by any thread: it installs `v` only if `node`'s
field is still null, and otherwise leaves the heap unchanged (the failed
swap writes nothing). -/
def casNext (st : Nat → Option Nat) (node v : Nat) : Nat → Option Nat :=
  fun i =>
    if i = node then
      match st node with
      | none => some v
      | some a => some a
    else st i

/-- An arbitrary interleaving of append attempts by any number of threads:
the heap after executing a list of compare-exchanges (each `(node, v)` pair
one attempt) in linearization order. -/
def runCas (st : Nat → Option Nat) : List (Nat × Nat) → Nat → Option Nat
  | [] => st
  | op :: ops => runCas (casNext st op.1 op.2) ops

theorem runCas_stable (st : Nat → Option Nat) (ops : List (Nat × Nat))
    (n x : Nat) (h : st n = some x) : runCas st ops n = some x := by
  induction ops generalizing st with
  | nil => exact h
  | cons op ops ih =>
    apply ih
    by_cases hn : n = op.1
    · simp [casNext, ← hn, h]
    · simp [casNext, hn, h]

/-- The claim-first-unclaimed predicate of the repository test
`test_concurrent_iter_and_append`: each slot is an `AtomicBool`, and the
predicate `b.compare_exchange(false, true, SeqCst, SeqCst)` claims the slot
(writes `true` and yields a result) exactly when it currently holds
`false`. -/
def claimSlot : Bool → Option (Unit × Bool) :=
  fun b => if b then none else some ((), true)

/-- `k` back-to-back calls of `try_for_each_with_append` with the claiming
predicate (the sequential interleaving of the test's `k` threads), each call
given fuel `numSegs + 1`, which `claimStep` below shows always suffices. -/
def runClaims (N : Nat) : Nat → UnrolledLinkedList Bool → UnrolledLinkedList Bool
  | 0, l => l
  | k + 1, l =>
    match (tryGo claimSlot false N (l.head.numSegs + 1) l.head).2 with
    | some p => runClaims N k ⟨p.2⟩
    | none => l

/-- The container after `K` claiming calls on a fresh container of width `N`. -/
def afterClaims (N K : Nat) : UnrolledLinkedList Bool :=
  runClaims N K (UnrolledLinkedList.defaultList false N)

/-- The segment list of the chain after `N * q + r` claims (`r < N`): `q`
fully claimed segments plus, when `r > 0`, one segment with its first `r`
slots claimed; a fresh container (`q = r = 0`) is one unclaimed segment. -/
def claimedSegs (N q r : Nat) : List (List Bool) :=
  if r = 0 then
    if q = 0 then [List.replicate N false]
    else List.replicate q (List.replicate N true)
  else
    List.replicate q (List.replicate N true)
      ++ [List.replicate r true ++ List.replicate (N - r) false]

theorem claimSlot_true : claimSlot true = none := rfl

theorem replicate_append_cons {A : Type u} (n : Nat) (a : A) (l : List A) :
    List.replicate n a ++ a :: l = List.replicate (n + 1) a ++ l := by
  induction n with
  | zero => rfl
  | succ n ih => simp [List.replicate_succ, ih]

theorem claimSlot_of_mem_replicate (n : Nat) (x : Bool)
    (hx : x ∈ List.replicate n true) : claimSlot x = none := by
  rw [List.eq_of_mem_replicate hx, claimSlot_true]

theorem scanSeg_fullTrue (n : Nat) :
    scanSeg claimSlot (List.replicate n true) = (List.replicate n true, none) :=
  scanSeg_of_all_none claimSlot _ (claimSlot_of_mem_replicate n)

/-- Scanning a fresh all-default segment claims its first slot. -/
theorem claimFresh (N' : Nat) (fuel : Nat) :
    tryGoSegs claimSlot false (N' + 1) (fuel + 1) [List.replicate (N' + 1) false]
      = ([false], some ((), [true :: List.replicate N' false])) := by
  rw [tryGoSegs_cons, List.replicate_succ, scanSeg_cons]
  rfl

/-- Scanning a chain of `q + 1` fully claimed segments exhausts them all,
appends one default segment and claims its first slot. -/
theorem claimFull (N' : Nat) : ∀ q,
    (tryGoSegs claimSlot false (N' + 1) (q + 2)
        (List.replicate (q + 1) (List.replicate (N' + 1) true))).2
      = some ((), List.replicate (q + 1) (List.replicate (N' + 1) true)
          ++ [true :: List.replicate N' false]) := by
  intro q
  induction q with
  | zero =>
    rw [show (2 : Nat) = 1 + 1 from rfl]
    rw [List.replicate_one, tryGoSegs_cons, scanSeg_fullTrue]
    rw [show ([] : List (List Bool)).isEmpty = true from rfl, if_pos rfl]
    rw [claimFresh N' 0]
    rfl
  | succ q ih =>
    rw [List.replicate_succ, tryGoSegs_cons, scanSeg_fullTrue]
    have hisE : (List.replicate (q + 1) (List.replicate (N' + 1) true)).isEmpty = false := by
      rw [List.replicate_succ]
      rfl
    rw [hisE]
    simp only [Bool.false_eq_true, if_false]
    cases hrec : tryGoSegs claimSlot false (N' + 1) (q + 2)
        (List.replicate (q + 1) (List.replicate (N' + 1) true)) with
    | mk tr res =>
      rw [hrec] at ih
      simp only at ih
      rw [ih]
      simp [List.replicate_succ]

/-- Scanning a chain of `q` fully claimed segments followed by one partially
claimed segment claims the first unclaimed slot of that last segment. -/
theorem claimPartial (N' r' : Nat) (hr : r' + 1 < N' + 1) : ∀ q,
    (tryGoSegs claimSlot false (N' + 1) (q + 2)
        (List.replicate q (List.replicate (N' + 1) true)
          ++ [List.replicate (r' + 1) true ++ List.replicate (N' - r') false])).2
      = some ((), List.replicate q (List.replicate (N' + 1) true)
          ++ [List.replicate (r' + 2) true ++ List.replicate (N' - r' - 1) false]) := by
  intro q
  induction q with
  | zero =>
    rw [List.replicate_zero, List.nil_append, List.nil_append]
    rw [show (2 : Nat) = 1 + 1 from rfl, tryGoSegs_cons]
    have hsplit : List.replicate (N' - r') false
        = false :: List.replicate (N' - r' - 1) false := by
      obtain ⟨m, hm⟩ : ∃ m, N' - r' = m + 1 := ⟨N' - r' - 1, by omega⟩
      rw [hm, List.replicate_succ]
      congr 1
    rw [hsplit]
    rw [scanSeg_append_match claimSlot _ false _ () true
      (claimSlot_of_mem_replicate _) rfl]
    simp [replicate_append_cons (r' + 1) true (List.replicate (N' - r' - 1) false)]
  | succ q ih =>
    rw [List.replicate_succ, List.cons_append, tryGoSegs_cons, scanSeg_fullTrue]
    have hisE : (List.replicate q (List.replicate (N' + 1) true)
        ++ [List.replicate (r' + 1) true ++ List.replicate (N' - r') false]).isEmpty
          = false := by
      cases hq : List.replicate q (List.replicate (N' + 1) true) <;> rfl
    rw [hisE]
    simp only [Bool.false_eq_true, if_false]
    cases hrec : tryGoSegs claimSlot false (N' + 1) (q + 2)
        (List.replicate q (List.replicate (N' + 1) true)
          ++ [List.replicate (r' + 1) true ++ List.replicate (N' - r') false]) with
    | mk tr res =>
      rw [hrec] at ih
      simp only at ih
      rw [ih]
      simp [List.replicate_succ]

theorem claimedSegs_ne_nil (N q r : Nat) : claimedSegs N q r ≠ [] := by
  unfold claimedSegs
  by_cases hr : r = 0
  · by_cases hq : q = 0
    · simp [hr, hq]
    · obtain ⟨q', rfl⟩ : ∃ q', q = q' + 1 := ⟨q - 1, by omega⟩
      simp [hr, List.replicate_succ]
  · simp [hr]

theorem claimedSegs_length (N q r : Nat) :
    (claimedSegs N q r).length = if r = 0 then (if q = 0 then 1 else q) else q + 1 := by
  unfold claimedSegs
  by_cases hr : r = 0 <;> by_cases hq : q = 0 <;> simp [hr, hq]

/-- One claiming call on the chain holding `N * q + r` claims (`r < N`),
given fuel `numSegs + 1`, succeeds and produces the chain holding one more
claim. -/
theorem claimStep (N' q r : Nat) (hr : r < N' + 1) :
    (tryGoSegs claimSlot false (N' + 1)
        ((claimedSegs (N' + 1) q r).length + 1) (claimedSegs (N' + 1) q r)).2
      = some ((), if r + 1 = N' + 1 then claimedSegs (N' + 1) (q + 1) 0
          else claimedSegs (N' + 1) q (r + 1)) := by
  by_cases hr0 : r = 0
  · subst hr0
    by_cases hq0 : q = 0
    · subst hq0
      rw [show claimedSegs (N' + 1) 0 0 = [List.replicate (N' + 1) false] by
        simp [claimedSegs]]
      rw [show ([List.replicate (N' + 1) false] : List (List Bool)).length + 1
        = 1 + 1 from rfl]
      rw [claimFresh N' 1]
      by_cases hN1 : (0 : Nat) + 1 = N' + 1
      · have hN0 : N' = 0 := by omega
        subst hN0
        rw [if_pos hN1]
        simp [claimedSegs]
      · have hN0 : N' ≠ 0 := by omega
        rw [if_neg hN1]
        simp only [claimedSegs, if_neg (by omega : ¬(0 : Nat) + 1 = 0), if_pos rfl]
        simp [List.replicate_one]
    · obtain ⟨q', rfl⟩ : ∃ q', q = q' + 1 := ⟨q - 1, by omega⟩
      rw [show claimedSegs (N' + 1) (q' + 1) 0
        = List.replicate (q' + 1) (List.replicate (N' + 1) true) by
          simp [claimedSegs]]
      rw [show (List.replicate (q' + 1) (List.replicate (N' + 1) true)).length + 1
        = q' + 2 by simp]
      rw [claimFull N' q']
      by_cases hN1 : (0 : Nat) + 1 = N' + 1
      · have hN0 : N' = 0 := by omega
        subst hN0
        rw [if_pos hN1]
        simp only [claimedSegs, if_pos rfl, if_neg (by omega : ¬q' + 1 + 1 = 0)]
        rw [show List.replicate (0 : Nat) false = ([] : List Bool) from rfl]
        rw [show (true : Bool) :: ([] : List Bool) = List.replicate 1 true from rfl]
        rw [← List.replicate_succ' (q' + 1) (List.replicate 1 true)]
        simp [List.replicate_one]
      · rw [if_neg hN1]
        simp only [claimedSegs, if_neg (by omega : ¬(0 : Nat) + 1 = 0)]
        simp [List.replicate_one]
  · obtain ⟨r', rfl⟩ : ∃ r', r = r' + 1 := ⟨r - 1, by omega⟩
    rw [show claimedSegs (N' + 1) q (r' + 1)
      = List.replicate q (List.replicate (N' + 1) true)
        ++ [List.replicate (r' + 1) true ++ List.replicate (N' + 1 - (r' + 1)) false] by
        simp [claimedSegs]]
    rw [show N' + 1 - (r' + 1) = N' - r' by omega]
    rw [show (List.replicate q (List.replicate (N' + 1) true)
      ++ [List.replicate (r' + 1) true ++ List.replicate (N' - r') false]).length + 1
        = q + 2 by simp]
    rw [claimPartial N' r' hr q]
    by_cases hN1 : r' + 1 + 1 = N' + 1
    · rw [if_pos hN1]
      have hrN : r' + 2 = N' + 1 := by omega
      have hz : N' - r' - 1 = 0 := by omega
      rw [hz, hrN]
      rw [show List.replicate (0 : Nat) false = ([] : List Bool) from rfl,
        List.append_nil]
      rw [← List.replicate_succ' q (List.replicate (N' + 1) true)]
      rw [show claimedSegs (N' + 1) (q + 1) 0
        = List.replicate (q + 1) (List.replicate (N' + 1) true) by
          simp [claimedSegs]]
    · rw [if_neg hN1]
      simp only [claimedSegs, if_neg (by omega : ¬r' + 1 + 1 = 0)]
      rw [show N' + 1 - (r' + 1 + 1) = N' - r' - 1 by omega]

theorem iterSegs_ofSegs_of_ne_nil (segs : List (List T)) (h : segs ≠ []) :
    (ULLNode.ofSegs segs).iterSegs = segs := by
  cases segs with
  | nil => exact absurd rfl h
  | cons s rest => exact ULLNode.iterSegs_ofSegs s rest

/-- After `k` claiming calls on a chain holding `N * q + r` claims, the chain
holds `N * q + r + k` claims. -/
theorem runClaims_inv (N' : Nat) : ∀ (k q r : Nat), r < N' + 1 →
    ∀ l : UnrolledLinkedList Bool, l.head.iterSegs = claimedSegs (N' + 1) q r →
    (runClaims (N' + 1) k l).head.iterSegs
      = claimedSegs (N' + 1) (((N' + 1) * q + r + k) / (N' + 1))
          (((N' + 1) * q + r + k) % (N' + 1)) := by
  intro k
  induction k with
  | zero =>
    intro q r hr l hl
    rw [show runClaims (N' + 1) 0 l = l from rfl, hl]
    congr 1
    · rw [Nat.add_zero, Nat.mul_add_div (by omega), Nat.div_eq_of_lt hr, Nat.add_zero]
    · rw [Nat.add_zero, Nat.mul_add_mod, Nat.mod_eq_of_lt hr]
  | succ k ih =>
    intro q r hr l hl
    have hnum : l.head.numSegs = (claimedSegs (N' + 1) q r).length := by
      rw [ULLNode.numSegs, hl]
    have h2 : (tryGo claimSlot false (N' + 1) (l.head.numSegs + 1) l.head).2
        = some ((), ULLNode.ofSegs (if r + 1 = N' + 1 then claimedSegs (N' + 1) (q + 1) 0
            else claimedSegs (N' + 1) q (r + 1))) := by
      rw [tryGo_eq_tryGoSegs claimSlot false (N' + 1) (l.head.numSegs + 1) l.head]
      rw [hl, hnum, claimStep N' q r hr]
      rfl
    rw [show runClaims (N' + 1) (k + 1) l
      = (match (tryGo claimSlot false (N' + 1) (l.head.numSegs + 1) l.head).2 with
          | some p => runClaims (N' + 1) k ⟨p.2⟩
          | none => l) from rfl]
    rw [h2]
    by_cases hcase : r + 1 = N' + 1
    · rw [if_pos hcase]
      have hih := ih (q + 1) 0 (by omega)
        ⟨ULLNode.ofSegs (claimedSegs (N' + 1) (q + 1) 0)⟩
        (iterSegs_ofSegs_of_ne_nil _ (claimedSegs_ne_nil _ _ _))
      rw [show (N' + 1) * (q + 1) + 0 + k = (N' + 1) * q + r + (k + 1) by
        rw [Nat.mul_succ]; omega] at hih
      exact hih
    · rw [if_neg hcase]
      have hih := ih q (r + 1) (by omega)
        ⟨ULLNode.ofSegs (claimedSegs (N' + 1) q (r + 1))⟩
        (iterSegs_ofSegs_of_ne_nil _ (claimedSegs_ne_nil _ _ _))
      rw [show (N' + 1) * q + (r + 1) + k = (N' + 1) * q + r + (k + 1) by omega] at hih
      exact hih

/-- The chain after `K` claiming calls on a fresh width-`N` container. -/
theorem afterClaims_segs (N' K : Nat) :
    (afterClaims (N' + 1) K).head.iterSegs
      = claimedSegs (N' + 1) (K / (N' + 1)) (K % (N' + 1)) := by
  have h := runClaims_inv N' K 0 0 (by omega)
    (UnrolledLinkedList.defaultList false (N' + 1))
    (by simp [UnrolledLinkedList.defaultList, ULLNode.defaultNode, claimedSegs])
  rw [show (N' + 1) * 0 + 0 + K = K by omega] at h
  exact h

theorem ULLNode.iter_length_of_wf (N : Nat) (node : ULLNode T) (h : node.wf N) :
    node.iter.length = node.numSegs * N := by
  induction node with
  | tail items =>
    have hi := h items (by simp)
    simp [ULLNode.iter, ULLNode.numSegs, hi]
  | cons items n ih =>
    have hi := h items (by simp)
    have hn : n.wf N := fun s hs => h s (by simp [hs])
    have hrec := ih hn
    simp only [ULLNode.iter, ULLNode.numSegs, ULLNode.iterSegs_cons, List.flatten_cons,
      List.length_append, List.length_cons, hi] at hrec ⊢
    rw [hrec, Nat.succ_mul]
    omega

theorem ULLNode.dropSeq_map_items (node : ULLNode T) :
    node.dropSeq.map ULLNode.items = node.iterSegs := by
  induction node with
  | tail items => simp
  | cons items n ih => simp [ih]

theorem ULLNode.dropSeq_nodup (node : ULLNode T) : node.dropSeq.Nodup := by
  induction node with
  | tail items => simp
  | cons items n ih =>
    rw [ULLNode.dropSeq_cons, List.nodup_cons]
    refine ⟨?_, ih⟩
    intro hmem
    have hle := ULLNode.numSegs_le_of_mem_dropSeq n _ hmem
    simp only [ULLNode.numSegs, ULLNode.iterSegs_cons, List.length_cons] at hle
    omega

theorem ULLNode.dropSeq_zero (node : ULLNode T) : node.dropSeq[0]? = some node := by
  cases node <;> simp

theorem ULLNode.dropSeq_chain (node : ULLNode T) : ∀ (i : Nat) (m m' : ULLNode T),
    node.dropSeq[i]? = some m → node.dropSeq[i+1]? = some m' → m.next = some m' := by
  induction node with
  | tail items =>
    intro i m m' h1 h2
    rw [ULLNode.dropSeq_tail] at h2
    rcases i with _ | i <;> simp at h2
  | cons items n ih =>
    intro i m m' h1 h2
    rw [ULLNode.dropSeq_cons] at h1 h2
    cases i with
    | zero =>
      rw [List.getElem?_cons_zero] at h1
      rw [List.getElem?_cons_succ] at h2
      rw [ULLNode.dropSeq_zero n] at h2
      obtain rfl : ULLNode.cons items n = m := Option.some.inj h1
      obtain rfl : n = m' := Option.some.inj h2
      rfl
    | succ i =>
      rw [List.getElem?_cons_succ] at h1 h2
      exact ih i m m' h1 h2

/-- C1: for every chain state and every predicate, `try_for_each_with_append`
examines slots starting at the head segment, slot by slot in index order
within each segment and segment by segment in chain order (including any
freshly appended default segments): the sequence of slots passed to the
predicate is exactly the initial run of the flattened scan path up to and
including the first slot on which the predicate yields `Some`
(`scanTrace`, see `scanTrace_eq_takeWhile`), no later slot is examined, and
the value returned is the predicate's result on that first matching slot
(`List.findSome?`). -/
theorem claim_C1 (g : T → Option R) (d : T) (N : Nat) (fuel : Nat)
    (node : ULLNode T) :
    (tryGo (liftF g) d N fuel node).1
        = scanTrace g (pathSegs d N node fuel).flatten
    ∧ ((tryGo (liftF g) d N fuel node).2).map Prod.fst
        = (pathSegs d N node fuel).flatten.findSome? g := by
  have ht := tryGo_eq_tryGoSegs (liftF g) d N fuel node
  obtain ⟨h1, h2⟩ := tryGoSegs_liftF_char g d N fuel node.iterSegs node.iterSegs_ne_nil
  rw [ht]
  constructor
  · exact h1
  · rw [show pathSegs d N node fuel = pathL d N node.iterSegs fuel from rfl, ← h2]
    cases hres : (tryGoSegs (liftF g) d N fuel node.iterSegs).2 with
    | none => simp
    | some q => simp

/-- C2: when the predicate accepts the default slot value and `N ≥ 1`, the
scan terminates within `numSegs + 1` loop iterations and returns a result;
and in general a fuel-exhausted run (`none`) has examined every slot of the
whole fuel-extended path with no match — there is no terminal "not found"
outcome, only a result from some slot or a scan that keeps growing the
chain as the fuel bound increases. -/
theorem claim_C2 (f : T → Option (R × T)) (d : T) (N : Nat) (node : ULLNode T) :
    ((f d).isSome → 1 ≤ N → (tryGo f d N (node.numSegs + 1) node).2.isSome)
    ∧ (∀ fuel : Nat, (tryGo f d N fuel node).2 = none →
        (tryGo f d N fuel node).1 = (pathSegs d N node fuel).flatten
        ∧ ∀ x ∈ (pathSegs d N node fuel).flatten, f x = none) := by
  constructor
  · intro hd hN
    have h := tryGoSegs_isSome f d N hd hN node.iterSegs node.iterSegs_ne_nil
    rw [tryGo_eq_tryGoSegs]
    simp only [Option.isSome_map']
    exact h
  · intro fuel hnone
    have ht := tryGo_eq_tryGoSegs f d N fuel node
    rw [ht] at hnone ⊢
    simp only [Option.map_eq_none'] at hnone
    exact tryGoSegs_none_char f d N fuel node.iterSegs node.iterSegs_ne_nil hnone

theorem claim_C2_witness :
    (tryGo claimSlot false 1 2 (ULLNode.tail [true])).2.isSome
    ∧ (tryGo claimSlot false 1 1 (ULLNode.tail [true])).1
        = (pathSegs false 1 (ULLNode.tail [true]) 1).flatten
    ∧ claimSlot true = none := by
  have h := claim_C2 claimSlot false 1 (ULLNode.tail [true])
  exact ⟨h.1 rfl (by omega), (h.2 1 rfl).1, (h.2 1 rfl).2 true (by decide)⟩

/-- C3: at an exhausted tail the thread constructs exactly one new fully
default-initialized node and attempts exactly one compare-exchange of the
null `next` pointer.  On success (`actual = none`) the new node is linked and
scanning continues from it; on failure (`actual = some a`) the speculative
node is discarded without being linked (the `next` field holds exactly the
winner's node `a`, and the returned `linked` flag is `false`, meaning the
node is deallocated), and scanning continues from `a`, the compare-exchange's
actual current value — the single compare-exchange resolves the tail
position, so there is at most one failed attempt per thread per tail, and in
every outcome the `next` reference ends up present. -/
theorem claim_C3 (d : T) (N : Nat) (a : ULLNode T) :
    linkOrDiscard d N none
      = (ULLNode.defaultNode d N, some (ULLNode.defaultNode d N),
          ULLNode.defaultNode d N, true)
    ∧ linkOrDiscard d N (some a)
      = (ULLNode.defaultNode d N, some a, a, false)
    ∧ (∀ actual : Option (ULLNode T), ((linkOrDiscard d N actual).2.1).isSome) :=
  ⟨rfl, rfl, fun actual => by cases actual <;> rfl⟩

/-- C4: over any interleaving of compare-exchanges (the sole writes to
`next` fields in the source — `iter` and `Drop` only load), a `next`
reference that is present never changes again: it is never cleared and never
replaced; and one step either leaves a field unchanged or moves it from
absent to present, so each field transitions absent → present at most
once. -/
theorem claim_C4 (st : Nat → Option Nat) (ops : List (Nat × Nat)) (n x v a : Nat) :
    (st n = some x → runCas st ops n = some x)
    ∧ (casNext st a v n = st n
        ∨ (st n = none ∧ n = a ∧ casNext st a v n = some v)) := by
  constructor
  · exact runCas_stable st ops n x
  · by_cases hna : n = a
    · subst hna
      cases hsn : st n with
      | none => exact Or.inr ⟨rfl, rfl, by simp [casNext, hsn]⟩
      | some b => exact Or.inl (by simp [casNext, hsn])
    · exact Or.inl (by simp [casNext, hna])

theorem claim_C4_witness :
    runCas (fun i => if i = 0 then some 5 else none) [(0, 9), (1, 7)] 0 = some 5 :=
  (claim_C4 (fun i => if i = 0 then some 5 else none) [(0, 9), (1, 7)] 0 5 9 0).1 rfl

/-- C5: `iter` first walks the entire chain reachable from the head,
collecting one item sequence per linked segment (`iterSegs`, the `iters`
vector of the source), then flattens them: every slot of every segment in
chain order, each segment's slots in index order; the sequence is finite
with length `numSegs * N` when every segment holds `N` slots. -/
theorem claim_C5 (N : Nat) (node : ULLNode T) :
    node.iter = node.iterSegs.flatten
    ∧ node.iterSegs.length = node.numSegs
    ∧ (node.wf N → node.iter.length = node.numSegs * N) :=
  ⟨rfl, rfl, fun h => ULLNode.iter_length_of_wf N node h⟩

theorem claim_C5_witness :
    (ULLNode.cons [true] (ULLNode.tail [false])).iter.length
      = (ULLNode.cons [true] (ULLNode.tail [false])).numSegs * 1 :=
  (claim_C5 1 (ULLNode.cons [true] (ULLNode.tail [false]))).2.2 (by
    intro s hs
    simp at hs
    rcases hs with rfl | rfl <;> rfl)

/-- C8: dropping a chain of `M` linked segments destroys all `M` of them,
each exactly once, in chain order: the destruction sequence starts at the
head, destroys exactly the linked segments (`M = numSegs` of them, with the
`i`-th destroyed node's `next` pointing at the `(i+1)`-th — each node's
destruction triggers its successor's), and contains no node twice (no
double-release) and misses none (no leak). -/
theorem claim_C8 (node : ULLNode T) :
    node.dropSeq.map ULLNode.items = node.iterSegs
    ∧ node.dropSeq.length = node.numSegs
    ∧ node.dropSeq.Nodup
    ∧ node.dropSeq[0]? = some node
    ∧ (∀ (i : Nat) (m m' : ULLNode T),
        node.dropSeq[i]? = some m → node.dropSeq[i+1]? = some m' →
        m.next = some m') := by
  refine ⟨ULLNode.dropSeq_map_items node, ?_, ULLNode.dropSeq_nodup node,
    ULLNode.dropSeq_zero node, ULLNode.dropSeq_chain node⟩
  have hlen := congrArg List.length (ULLNode.dropSeq_map_items node)
  rw [List.length_map] at hlen
  exact hlen

theorem claim_C8_witness :
    ((ULLNode.cons [true] (ULLNode.tail [false])).dropSeq.map ULLNode.items
        = [[true], [false]])
    ∧ (ULLNode.cons [true] (ULLNode.tail [false]) : ULLNode Bool).next
        = some (ULLNode.tail [false]) := by
  have h := claim_C8 (ULLNode.cons [true] (ULLNode.tail [false]))
  exact ⟨by rw [h.1]; rfl, h.2.2.2.2 0 _ _ rfl rfl⟩

/-- C9: a fresh container is exactly one head segment of `N` default slots
with an absent `next`; iterating it immediately yields exactly `N`
elements, all equal to the default value. -/
theorem claim_C9 (d : T) (N : Nat) :
    (UnrolledLinkedList.defaultList d N).head.items = List.replicate N d
    ∧ (UnrolledLinkedList.defaultList d N).head.next = none
    ∧ (UnrolledLinkedList.defaultList d N).head.numSegs = 1
    ∧ (UnrolledLinkedList.defaultList d N).head.iter = List.replicate N d
    ∧ (UnrolledLinkedList.defaultList d N).head.iter.length = N
    ∧ (∀ x ∈ (UnrolledLinkedList.defaultList d N).head.iter, x = d) := by
  refine ⟨rfl, rfl, rfl, ?_, ?_, ?_⟩
  · simp [UnrolledLinkedList.defaultList, ULLNode.defaultNode, ULLNode.iter]
  · simp [UnrolledLinkedList.defaultList, ULLNode.defaultNode, ULLNode.iter]
  · intro x hx
    simp only [UnrolledLinkedList.defaultList, ULLNode.defaultNode, ULLNode.iter,
      ULLNode.iterSegs_tail, List.flatten_cons, List.flatten_nil,
      List.append_nil] at hx
    exact List.eq_of_mem_replicate hx

theorem claim_C9_witness :
    (UnrolledLinkedList.defaultList false 2).head.iter = List.replicate 2 false
    ∧ (UnrolledLinkedList.defaultList false 2).head.iter.length = 2
    ∧ (false : Bool) = false := by
  have h := claim_C9 false 2
  exact ⟨h.2.2.2.1, h.2.2.2.2.1, h.2.2.2.2.2 false (by decide)⟩

/-- Auxiliary to C10: with width zero every segment the loop can see is
empty, so the loop scans nothing, appends an empty segment and repeats,
exhausting any fuel bound with an empty examination trace. -/
theorem tryGoSegs_all_nil (f : T → Option (R × T)) (d : T) (fuel : Nat) :
    ∀ segs : List (List T), (∀ s ∈ segs, s = []) →
    tryGoSegs f d 0 fuel segs = ([], none) := by
  induction fuel with
  | zero => intro segs _; rfl
  | succ fuel ih =>
    intro segs h
    cases segs with
    | nil => rfl
    | cons s rest =>
      have hs : s = [] := h s (by simp)
      subst hs
      rw [tryGoSegs_cons]
      rw [show scanSeg f ([] : List T) = ([], none) from rfl]
      have hrest : ∀ s ∈ (if rest.isEmpty then [List.replicate 0 d] else rest), s = [] := by
        by_cases hre : rest.isEmpty
        · rw [if_pos hre]
          intro s hs
          simp at hs
          simp [hs]
        · rw [if_neg hre]
          intro s hs
          exact h s (by simp [hs])
      rw [ih _ hrest]
      rfl

/-- C10: with segment width `N = 0` every call of the scan loop, for every
predicate, passes no slot to the predicate (the trace is empty) and never
returns a result — every fuel bound is exhausted with the loop still
appending empty segments. -/
theorem claim_C10 (f : T → Option (R × T)) (d : T) (node : ULLNode T)
    (hwf : node.wf 0) (fuel : Nat) :
    (tryGo f d 0 fuel node).2 = none ∧ (tryGo f d 0 fuel node).1 = [] := by
  have hnil : ∀ s ∈ node.iterSegs, s = [] :=
    fun s hs => List.length_eq_zero.mp (hwf s hs)
  rw [tryGo_eq_tryGoSegs, tryGoSegs_all_nil f d fuel node.iterSegs hnil]
  exact ⟨rfl, rfl⟩

theorem claim_C10_witness :
    (tryGo (fun b : Bool => some (1, b)) false 0 5 (ULLNode.tail [])).2 = none
    ∧ (tryGo (fun b : Bool => some (1, b)) false 0 5 (ULLNode.tail [])).1 = [] :=
  claim_C10 (fun b : Bool => some (1, b)) false (ULLNode.tail []) (by
    intro s hs
    simp at hs
    simp [hs]) 5

/-- C7: if a slot of the chain existing at the start of the call matches,
a successful call leaves the chain skeleton (segment count, each segment's
length, all links) unchanged — and for a pure predicate the chain is
returned literally unchanged.  In general the chain never shrinks, and
whenever a successful call grew the chain to `K` segments, the same scan
bounded to `K - 1` loop iterations finds nothing: every appended segment
was strictly needed (zero segments beyond what is needed, which implies
the claim's "never more than one beyond"). -/
theorem claim_C7 (f : T → Option (R × T)) (g : T → Option R) (d : T)
    (N : Nat) (fuel : Nat) (node : ULLNode T) :
    ((∃ x ∈ node.iter, (f x).isSome) → ∀ (r : R) (node' : ULLNode T),
        (tryGo f d N fuel node).2 = some (r, node') →
        node'.iterSegs.map List.length = node.iterSegs.map List.length)
    ∧ ((∃ x ∈ node.iter, (g x).isSome) → ∀ (r : R) (node' : ULLNode T),
        (tryGo (liftF g) d N fuel node).2 = some (r, node') → node' = node)
    ∧ (∀ (r : R) (node' : ULLNode T),
        (tryGo f d N fuel node).2 = some (r, node') →
        node.numSegs ≤ node'.numSegs
        ∧ (node.numSegs < node'.numSegs →
            (tryGo f d N (node'.numSegs - 1) node).2 = none)) := by
  refine ⟨?_, ?_, ?_⟩
  · intro hm r node' hsome
    rw [tryGo_eq_tryGoSegs] at hsome
    cases hres : (tryGoSegs f d N fuel node.iterSegs).2 with
    | none => rw [hres] at hsome; simp at hsome
    | some q =>
      rw [hres] at hsome
      simp only [Option.map_some', Option.some.injEq, Prod.mk.injEq] at hsome
      have hframe := tryGoSegs_frame f d N fuel node.iterSegs hm q.1 q.2
        (by rw [hres])
      have hne : q.2 ≠ [] := tryGoSegs_ne_nil f d N fuel _ q.1 q.2 (by rw [hres])
      rw [← hsome.2, iterSegs_ofSegs_of_ne_nil q.2 hne]
      exact hframe
  · intro hm r node' hsome
    rw [tryGo_eq_tryGoSegs] at hsome
    cases hres : (tryGoSegs (liftF g) d N fuel node.iterSegs).2 with
    | none => rw [hres] at hsome; simp at hsome
    | some q =>
      rw [hres] at hsome
      simp only [Option.map_some', Option.some.injEq, Prod.mk.injEq] at hsome
      have hframe := tryGoSegs_liftF_frame g d N fuel node.iterSegs hm q.1 q.2
        (by rw [hres])
      rw [← hsome.2, hframe, ULLNode.ofSegs_iterSegs]
  · intro r node' hsome
    rw [tryGo_eq_tryGoSegs] at hsome
    cases hres : (tryGoSegs f d N fuel node.iterSegs).2 with
    | none => rw [hres] at hsome; simp at hsome
    | some q =>
      rw [hres] at hsome
      simp only [Option.map_some', Option.some.injEq, Prod.mk.injEq] at hsome
      have hne : q.2 ≠ [] := tryGoSegs_ne_nil f d N fuel _ q.1 q.2 (by rw [hres])
      have hlen : node'.numSegs = q.2.length := by
        rw [← hsome.2, ULLNode.numSegs, iterSegs_ofSegs_of_ne_nil q.2 hne]
      constructor
      · rw [hlen]
        exact tryGoSegs_length_le f d N fuel node.iterSegs q.1 q.2 (by rw [hres])
      · intro hlt
        rw [hlen] at hlt ⊢
        have hmin := tryGoSegs_minimal f d N fuel node.iterSegs q.1 q.2
          node.iterSegs_ne_nil (by rw [hres]) hlt
        rw [tryGo_eq_tryGoSegs, hmin]
        rfl

theorem claim_C7_witness :
    ((ULLNode.tail [true, true] : ULLNode Bool).iterSegs.map List.length
        = (ULLNode.tail [false, true] : ULLNode Bool).iterSegs.map List.length)
    ∧ ((ULLNode.tail [false, true] : ULLNode Bool)
        = ULLNode.tail [false, true])
    ∧ ((ULLNode.tail [false, true] : ULLNode Bool).numSegs
        ≤ (ULLNode.tail [true, true] : ULLNode Bool).numSegs) := by
  have h := claim_C7 (fun b : Bool => if b then none else some (5, true))
      (fun b : Bool => if b then some 7 else none) false 2 1
      (ULLNode.tail [false, true])
  exact ⟨h.1 (by decide) 5 (ULLNode.tail [true, true]) rfl,
    h.2.1 (by decide) 7 (ULLNode.tail [false, true]) rfl,
    (h.2.2 5 (ULLNode.tail [true, true]) rfl).1⟩

theorem claimedSegs_numSegs_ceil (N q r K : Nat) (hN : 1 ≤ N) (hr : r < N)
    (hqr : N * q + r = K) (hK : 1 ≤ K) :
    (claimedSegs N q r).length = (K + N - 1) / N := by
  rw [claimedSegs_length]
  by_cases hr0 : r = 0
  · subst hr0
    have hq1 : ¬q = 0 := by rintro rfl; omega
    rw [if_pos rfl, if_neg hq1]
    rw [← hqr]
    rw [show N * q + 0 + N - 1 = N * q + (N - 1) by omega]
    rw [Nat.mul_add_div (by omega)]
    rw [Nat.div_eq_of_lt (by omega)]
    omega
  · rw [if_neg hr0]
    rw [← hqr]
    rw [show N * q + r + N - 1 = N * (q + 1) + (r - 1) by rw [Nat.mul_succ]; omega]
    rw [Nat.mul_add_div (by omega)]
    rw [Nat.div_eq_of_lt (by omega)]

theorem claimedSegs_flatten (N q r K : Nat) (_h1N : 1 ≤ N) (hr : r < N)
    (hqr : N * q + r = K) (hK : 1 ≤ K) :
    (claimedSegs N q r).flatten
      = List.replicate K true
        ++ List.replicate ((claimedSegs N q r).length * N - K) false := by
  rw [claimedSegs_length]
  by_cases hr0 : r = 0
  · subst hr0
    have hq1 : ¬q = 0 := by rintro rfl; omega
    rw [if_pos rfl, if_neg hq1]
    rw [show claimedSegs N q 0 = List.replicate q (List.replicate N true) by
      simp [claimedSegs, hq1]]
    rw [List.flatten_replicate_replicate]
    have hqN : q * N = K := by rw [Nat.mul_comm]; omega
    rw [hqN, show K - K = 0 by omega]
    simp
  · rw [if_neg hr0]
    rw [show claimedSegs N q r
      = List.replicate q (List.replicate N true)
        ++ [List.replicate r true ++ List.replicate (N - r) false] by
      simp [claimedSegs, hr0]]
    rw [List.flatten_append]
    rw [show ([List.replicate r true ++ List.replicate (N - r) false]).flatten
      = List.replicate r true ++ List.replicate (N - r) false by simp]
    rw [List.flatten_replicate_replicate]
    rw [← List.append_assoc]
    rw [← List.replicate_add]
    have h1 : q * N + r = K := by rw [Nat.mul_comm]; omega
    have h2 : (q + 1) * N - K = N - r := by rw [Nat.succ_mul]; omega
    rw [h1, h2]

/-- C6: starting from a fresh width-`N` container, `K ≥ 1` sequential calls
of `try_for_each_with_append` with the claim-first-unclaimed predicate leave
a chain of exactly `⌈K / N⌉` segments in which exactly the first `K` slots
(in iteration order: segment link order, then in-segment index order) are
claimed and the remaining `⌈K / N⌉ * N - K` slots are unclaimed; the
witness instantiates the concrete scenario `N = 2`, `K = 5`: 3 segments,
iteration order `[true, true, true, true, true, false]`, 5 claimed slots. -/
theorem claim_C6 (N K : Nat) (hN : 1 ≤ N) (hK : 1 ≤ K) :
    (afterClaims N K).head.numSegs = (K + N - 1) / N
    ∧ (afterClaims N K).head.iter
        = List.replicate K true
          ++ List.replicate ((K + N - 1) / N * N - K) false
    ∧ (afterClaims N K).head.iter.count true = K := by
  obtain ⟨N', rfl⟩ : ∃ N', N = N' + 1 := ⟨N - 1, by omega⟩
  have hsegs := afterClaims_segs N' K
  have hqr : (N' + 1) * (K / (N' + 1)) + K % (N' + 1) = K := Nat.div_add_mod K (N' + 1)
  have hrlt : K % (N' + 1) < N' + 1 := Nat.mod_lt _ (by omega)
  have hceil := claimedSegs_numSegs_ceil (N' + 1) (K / (N' + 1)) (K % (N' + 1)) K
    hN hrlt hqr hK
  have hflat := claimedSegs_flatten (N' + 1) (K / (N' + 1)) (K % (N' + 1)) K
    hN hrlt hqr hK
  have hnum : (afterClaims (N' + 1) K).head.numSegs = (K + (N' + 1) - 1) / (N' + 1) := by
    rw [ULLNode.numSegs, hsegs, hceil]
  have hit : (afterClaims (N' + 1) K).head.iter
      = List.replicate K true
        ++ List.replicate ((K + (N' + 1) - 1) / (N' + 1) * (N' + 1) - K) false := by
    rw [ULLNode.iter, hsegs, hflat, hceil]
  refine ⟨hnum, hit, ?_⟩
  rw [hit, List.count_append, List.count_replicate_self, List.count_replicate]
  simp

theorem claim_C6_witness :
    (afterClaims 2 5).head.numSegs = 3
    ∧ (afterClaims 2 5).head.iter = [true, true, true, true, true, false]
    ∧ (afterClaims 2 5).head.iter.count true = 5 := by
  have h := claim_C6 2 5 (by omega) (by omega)
  refine ⟨?_, ?_, h.2.2⟩
  · rw [h.1]
  · rw [h.2.1]
    rfl

end UnrolledLL
